import Mathlib

/-!
Verification of the azmq socket adapter (src/azmq/socket.hpp and its
specification).  The asynchronous engine, the option codec and the
endpoint bookkeeping live in the service layer (detail/socket_service),
which is not part of the sources at hand; those parts are modelled from
the specification, as indicated on each definition.  Everything defined
directly from src/azmq/socket.hpp cites the relevant lines.
-/

namespace Azmq

/-- Error kinds of the adapter (spec section 7).  `ok` is the zero
(success) value of a boost-style error code; its boolean conversion is
true exactly when the code differs from `ok`. -/
inductive ECode where
  | ok
  | noBufferSpace
  | aborted
  | resourceError
  | addressError
  | optionError (id : Nat)
  | shutdownError
  | transferError
deriving DecidableEq, Repr

/-- Outcome of a call into the underlying service send: bytes
transferred together with the error code the service wrote into `ec`. -/
abbrev SvcResult := Nat × ECode

/-- `socket::send(message const&, flags, ec)` (src/azmq/socket.hpp
449-453): delegates to the service and reports its outcome unchanged. -/
def send_msg_ec (svc : SvcResult) : Nat × ECode := svc

/-- `socket::send(message const&, flags)` (src/azmq/socket.hpp 462-469):
calls the service, then tests `if (res)` on the returned byte count and
throws when it is nonzero, returning `res` otherwise. -/
def send_msg_noec (svc : SvcResult) : Except ECode Nat :=
  let res := (send_msg_ec svc).1
  let ec := (send_msg_ec svc).2
  if res ≠ 0 then Except.error ec else Except.ok res

/-- `socket::send(ConstBufferSequence, flags)` (src/azmq/socket.hpp
432-439) and every other convenience wrapper in the file apart from the
message send: tests `if (ec)` and throws exactly on error. -/
def send_bufs_noec (svc : SvcResult) : Except ECode Nat :=
  let res := (send_msg_ec svc).1
  let ec := (send_msg_ec svc).2
  if ec ≠ ECode.ok then Except.error ec else Except.ok res

/-- C1: the claim says every convenience variant throws exactly when the
error-code variant reports an error and otherwise returns the same byte
count.  The message-send convenience variant violates this: on a
successful one-byte send (service outcome `(1, ok)`) it throws even
though the error-code variant reports success, and on a failed send with
zero bytes (service outcome `(0, transferError)`) it returns without
throwing; the buffer-send wrapper behaves as claimed on both outcomes. -/
theorem send_msg_convenience_diverges :
    send_msg_ec (1, ECode.ok) = (1, ECode.ok) ∧
    send_msg_noec (1, ECode.ok) = Except.error ECode.ok ∧
    send_msg_ec (0, ECode.transferError) = (0, ECode.transferError) ∧
    send_msg_noec (0, ECode.transferError) = Except.ok 0 ∧
    send_bufs_noec (1, ECode.ok) = Except.ok 1 ∧
    send_bufs_noec (0, ECode.transferError) = Except.error ECode.transferError := by
  refine ⟨rfl, rfl, rfl, rfl, rfl, rfl⟩

/-! ## Asynchronous operation queue (spec sections 3-5)

Modelled from the spec: the per-socket, per-direction FIFO queue of
pending asynchronous operations, the readiness-edge drain algorithm and
`cancel()`.  The service layer implementing them is not among the
sources; the spec fixes FIFO order per direction, scheduling of every
handler exactly once, and aborting all queued operations on cancel. -/

/-- Direction of a pending operation (spec: PendingOperation). -/
inductive Dir where
  | read
  | write
deriving DecidableEq, Repr

/-- Record delivered to a completion handler: direction and identity of
the operation, the byte count when it completed with a transfer, and
the error code.  Byte counts of successful transfers are abstracted to
zero since only their presence matters here. -/
structure Completion where
  dir : Dir
  op : Nat
  bytes : Option Nat
  ec : ECode
deriving DecidableEq, Repr

/-- Modelled from the spec: per-socket state of the asynchronous engine:
one FIFO queue of pending operation identities per direction, plus the
log of handler invocations in the order they were scheduled. -/
structure OpQueueState where
  readQ : List Nat
  writeQ : List Nat
  log : List Completion
deriving DecidableEq, Repr

/-- Events driving one socket's asynchronous engine: enqueue of an
operation on a direction, a readiness edge on a direction letting the
drain loop complete up to k head operations before would-block, and
`cancel()`. -/
inductive Ev where
  | enq (d : Dir) (id : Nat)
  | edge (d : Dir) (k : Nat)
  | cancel
deriving DecidableEq, Repr

/-- The queue of a given direction. -/
def qOf (s : OpQueueState) : Dir → List Nat
  | Dir.read => s.readQ
  | Dir.write => s.writeQ

/-- Handler records for operations completing successfully in order. -/
def completeOk (d : Dir) (ids : List Nat) : List Completion :=
  ids.map (fun i => ⟨d, i, some 0, ECode.ok⟩)

/-- Handler records for operations aborted by `cancel()`: an `aborted`
error and no byte count. -/
def abortAll (d : Dir) (ids : List Nat) : List Completion :=
  ids.map (fun i => ⟨d, i, none, ECode.aborted⟩)

/-- Modelled from the spec: one engine transition.  Enqueue appends to
the direction's FIFO; a readiness edge drains head operations in order
until would-block (k successes), scheduling their handlers; `cancel()`
aborts every queued operation of both directions, scheduling each
handler once with `aborted`. -/
def step (s : OpQueueState) : Ev → OpQueueState
  | Ev.enq Dir.read i => { s with readQ := s.readQ ++ [i] }
  | Ev.enq Dir.write i => { s with writeQ := s.writeQ ++ [i] }
  | Ev.edge Dir.read k =>
      { s with readQ := s.readQ.drop k,
               log := s.log ++ completeOk Dir.read (s.readQ.take k) }
  | Ev.edge Dir.write k =>
      { s with writeQ := s.writeQ.drop k,
               log := s.log ++ completeOk Dir.write (s.writeQ.take k) }
  | Ev.cancel =>
      { s with readQ := [], writeQ := [],
               log := s.log ++ abortAll Dir.read s.readQ
                            ++ abortAll Dir.write s.writeQ }

/-- The engine's initial state: empty queues, no handler invoked. -/
def initState : OpQueueState := ⟨[], [], []⟩

/-- Running the engine over a sequence of events. -/
def run (es : List Ev) : OpQueueState := es.foldl step initState

/-- Operation identities of the handler invocations of one direction,
in invocation order. -/
def logIds (d : Dir) (l : List Completion) : List Nat :=
  (l.filter (fun c => c.dir = d)).map Completion.op

/-- Operation identities enqueued on one direction, in enqueue order. -/
def enqIds (d : Dir) : List Ev → List Nat
  | [] => []
  | Ev.enq d' i :: es => if d' = d then i :: enqIds d es else enqIds d es
  | Ev.edge _ _ :: es => enqIds d es
  | Ev.cancel :: es => enqIds d es

theorem logIds_append (d : Dir) (l l' : List Completion) :
    logIds d (l ++ l') = logIds d l ++ logIds d l' := by
  simp [logIds, List.filter_append]

theorem logIds_completeOk_self (d : Dir) (ids : List Nat) :
    logIds d (completeOk d ids) = ids := by
  induction ids with
  | nil => rfl
  | cons i ids ih => simpa [logIds, completeOk, List.filter] using ih

theorem logIds_completeOk_other (d d' : Dir) (h : d' ≠ d) (ids : List Nat) :
    logIds d (completeOk d' ids) = [] := by
  induction ids with
  | nil => rfl
  | cons i ids _ih => simp [logIds, completeOk, List.filter, h]

theorem logIds_abortAll_self (d : Dir) (ids : List Nat) :
    logIds d (abortAll d ids) = ids := by
  induction ids with
  | nil => rfl
  | cons i ids ih => simpa [logIds, abortAll, List.filter] using ih

theorem logIds_abortAll_other (d d' : Dir) (h : d' ≠ d) (ids : List Nat) :
    logIds d (abortAll d' ids) = [] := by
  induction ids with
  | nil => rfl
  | cons i ids _ih => simp [logIds, abortAll, List.filter, h]

/-- Per-direction FIFO invariant: the identities already handed to
handlers, followed by the identities still queued, always equal the
enqueue order. -/
theorem fifo_invariant (d : Dir) :
    ∀ (es : List Ev) (s : OpQueueState),
      logIds d (es.foldl step s).log ++ qOf (es.foldl step s) d
        = (logIds d s.log ++ qOf s d) ++ enqIds d es := by
  intro es
  induction es with
  | nil => intro s; simp [enqIds]
  | cons e es ih =>
    intro s
    rw [List.foldl_cons, ih (step s e)]
    have hstep : logIds d (step s e).log ++ qOf (step s e) d
        = (logIds d s.log ++ qOf s d) ++ enqIds d [e] := by
      cases e with
      | enq d' i =>
        cases d' <;> cases d <;>
          simp [step, qOf, enqIds, logIds_append]
      | edge d' k =>
        cases d' <;> cases d <;>
          simp [step, qOf, enqIds, logIds_append, logIds_completeOk_self,
                logIds_completeOk_other]
      | cancel =>
        cases d <;>
          simp [step, qOf, enqIds, logIds_append, logIds_abortAll_self,
                logIds_abortAll_other]
    have hsplit : enqIds d (e :: es) = enqIds d [e] ++ enqIds d es := by
      cases e with
      | enq d' i => by_cases hd : d' = d <;> simp [enqIds, hd]
      | edge d' k => simp [enqIds]
      | cancel => simp [enqIds]
    rw [hstep, hsplit, List.append_assoc]

/-- C2: starting from the empty engine, after any event sequence the
handler invocations of each direction, in order, followed by that
direction's remaining queue, equal the enqueue order — so handlers of
one direction fire in exactly enqueue order.  The two concrete runs
show the directions are mutually unordered: the same pair of
operations, one per direction, completes in either order depending on
which readiness edge arrives first. -/
theorem async_completion_fifo :
    (∀ (es : List Ev) (d : Dir),
        logIds d (run es).log ++ qOf (run es) d = enqIds d es) ∧
    (run [Ev.enq Dir.read 0, Ev.enq Dir.write 1,
          Ev.edge Dir.read 1, Ev.edge Dir.write 1]).log
      = [⟨Dir.read, 0, some 0, ECode.ok⟩, ⟨Dir.write, 1, some 0, ECode.ok⟩] ∧
    (run [Ev.enq Dir.read 0, Ev.enq Dir.write 1,
          Ev.edge Dir.write 1, Ev.edge Dir.read 1]).log
      = [⟨Dir.write, 1, some 0, ECode.ok⟩, ⟨Dir.read, 0, some 0, ECode.ok⟩] := by
  refine ⟨fun es d => ?_, by decide, by decide⟩
  have h := fifo_invariant d es initState
  cases d <;> simpa [run, initState, logIds, qOf] using h

theorem abortAll_injective (d : Dir) :
    Function.Injective (fun j => (⟨d, j, none, ECode.aborted⟩ : Completion)) := by
  intro a b hab
  simpa [Completion.mk.injEq] using hab

/-- C4: from any engine state whose queues hold pairwise-distinct
pending operations, `cancel()` empties both queues and schedules, for
every queued operation, exactly one handler invocation carrying the
`aborted` error; every invocation it schedules carries no byte count;
and a second `cancel()` changes nothing (idempotence). -/
theorem cancel_aborts_each_once (s : OpQueueState)
    (hr : s.readQ.Nodup) (hw : s.writeQ.Nodup) :
    (step s Ev.cancel).readQ = [] ∧
    (step s Ev.cancel).writeQ = [] ∧
    (∀ i ∈ s.readQ,
        ((step s Ev.cancel).log.drop s.log.length).count
          ⟨Dir.read, i, none, ECode.aborted⟩ = 1) ∧
    (∀ i ∈ s.writeQ,
        ((step s Ev.cancel).log.drop s.log.length).count
          ⟨Dir.write, i, none, ECode.aborted⟩ = 1) ∧
    (∀ c ∈ (step s Ev.cancel).log.drop s.log.length,
        c.bytes = none ∧ c.ec = ECode.aborted) ∧
    step (step s Ev.cancel) Ev.cancel = step s Ev.cancel := by
  have hdrop : (step s Ev.cancel).log.drop s.log.length
      = abortAll Dir.read s.readQ ++ abortAll Dir.write s.writeQ := by
    show ((s.log ++ abortAll Dir.read s.readQ) ++ abortAll Dir.write s.writeQ).drop
        s.log.length = _
    rw [List.append_assoc, List.drop_left]
  refine ⟨rfl, rfl, ?_, ?_, ?_, ?_⟩
  · intro i hi
    rw [hdrop, List.count_append]
    have h1 : (abortAll Dir.read s.readQ).count ⟨Dir.read, i, none, ECode.aborted⟩ = 1 := by
      have := List.count_map_of_injective s.readQ
        (fun j => (⟨Dir.read, j, none, ECode.aborted⟩ : Completion))
        (abortAll_injective Dir.read) i
      rw [abortAll, this]
      exact List.count_eq_one_of_mem hr hi
    have h2 : (abortAll Dir.write s.writeQ).count ⟨Dir.read, i, none, ECode.aborted⟩ = 0 := by
      refine List.count_eq_zero.mpr ?_
      simp [abortAll]
    omega
  · intro i hi
    rw [hdrop, List.count_append]
    have h1 : (abortAll Dir.read s.readQ).count ⟨Dir.write, i, none, ECode.aborted⟩ = 0 := by
      refine List.count_eq_zero.mpr ?_
      simp [abortAll]
    have h2 : (abortAll Dir.write s.writeQ).count ⟨Dir.write, i, none, ECode.aborted⟩ = 1 := by
      have := List.count_map_of_injective s.writeQ
        (fun j => (⟨Dir.write, j, none, ECode.aborted⟩ : Completion))
        (abortAll_injective Dir.write) i
      rw [abortAll, this]
      exact List.count_eq_one_of_mem hw hi
    omega
  · intro c hc
    rw [hdrop] at hc
    rcases List.mem_append.mp hc with h | h <;>
      · rcases List.mem_map.mp h with ⟨j, _, rfl⟩
        exact ⟨rfl, rfl⟩
  · simp [step, abortAll]

/-- Witness for C4 at the concrete state with reads 1, 2 and write 3
queued: operation 1 is aborted exactly once. -/
theorem cancel_aborts_each_once_witness :
    ((step (⟨[1, 2], [3], []⟩ : OpQueueState) Ev.cancel).log.drop
        ((⟨[1, 2], [3], []⟩ : OpQueueState).log.length)).count
      ⟨Dir.read, 1, none, ECode.aborted⟩ = 1 :=
  (cancel_aborts_each_once ⟨[1, 2], [3], []⟩ (by decide) (by decide)).2.2.1 1 (by decide)

/-! ## Synchronous multipart receive (spec sections 4.1 and 4.3)

Modelled from the spec and the contract stated at
src/azmq/socket.hpp 227-254: receiving with ZMQ_RCVMORE fills the
supplied buffer sequence with the parts of one multipart message, in
order, stopping when the buffers are exhausted or the message signals
no more parts; if parts remain beyond the buffers, or a part exceeds
its buffer, the call reports no_buffer_space and the unread parts stay
on the socket. -/

/-- A message part: its payload bytes and the native flag telling
whether another part of the same message follows. -/
structure Part where
  bytes : List Nat
  more : Bool
deriving DecidableEq, Repr

/-- The parts of one multipart message built from its payloads: every
part carries the continuation flag except the last. -/
def mkMsg : List (List Nat) → List Part
  | [] => []
  | [b] => [⟨b, false⟩]
  | b :: c :: rest => ⟨b, true⟩ :: mkMsg (c :: rest)

/-- Modelled from the spec: the multipart drain of one receive call.
Arguments are the buffer capacities and the parts pending on the
socket; the result is the payloads placed into the buffers in order,
the parts left on the socket, and the error code. -/
def recvMore : List Nat → List Part → List (List Nat) × List Part × ECode
  | _, [] => ([], [], ECode.ok)
  | [], p :: rest => ([], p :: rest, ECode.noBufferSpace)
  | cap :: bufs, p :: rest =>
      if cap < p.bytes.length then ([], p :: rest, ECode.noBufferSpace)
      else if p.more then
        let r := recvMore bufs rest
        (p.bytes :: r.1, r.2.1, r.2.2)
      else ([p.bytes], rest, ECode.ok)

/-- Modelled from the spec: `socket::receive(buffers, ZMQ_RCVMORE, ec)`
(declared at src/azmq/socket.hpp 249-254) returning the total bytes
transferred, the parts left on the socket and the error code. -/
def receive (bufs : List Nat) (parts : List Part) : Nat × List Part × ECode :=
  let r := recvMore bufs parts
  ((r.1.map List.length).sum, r.2.1, r.2.2)

theorem mkMsg_cons (b : List Nat) (ps : List (List Nat)) (h : ps ≠ []) :
    mkMsg (b :: ps) = ⟨b, true⟩ :: mkMsg ps := by
  cases ps with
  | nil => exact absurd rfl h
  | cons c rest => rfl

theorem mkMsg_ne_nil (ps : List (List Nat)) (h : ps ≠ []) : mkMsg ps ≠ [] := by
  cases ps with
  | nil => exact absurd rfl h
  | cons b rest => cases rest <;> simp [mkMsg]

/-- C3: receiving an N-part message into K < N buffers, each of the
first K parts fitting its buffer, fills the K buffers with the first K
parts in order, reports no_buffer_space, and leaves exactly the
remaining N - K parts on the socket (as the same tagged message tail,
so later receive calls retrieve them); every consumed part — the Kth
in particular — carried the continuation (more) flag. -/
theorem recv_short_buffers (ps : List (List Nat)) (bufs : List Nat)
    (hlen : bufs.length < ps.length)
    (hfit : List.Forall₂ (fun p cap => p.length ≤ cap) (ps.take bufs.length) bufs) :
    recvMore bufs (mkMsg ps)
      = (ps.take bufs.length, mkMsg (ps.drop bufs.length), ECode.noBufferSpace) ∧
    ∀ q ∈ (mkMsg ps).take bufs.length, q.more = true := by
  induction bufs generalizing ps with
  | nil =>
    have hne : ps ≠ [] := by
      intro h
      rw [h] at hlen
      simp at hlen
    refine ⟨?_, by simp⟩
    cases hmk : mkMsg ps with
    | nil => exact absurd hmk (mkMsg_ne_nil ps hne)
    | cons p rest => simp [recvMore, hmk]
  | cons cap bufs ih =>
    obtain ⟨p, ps', rfl⟩ : ∃ p ps', ps = p :: ps' := by
      cases ps with
      | nil => simp at hlen
      | cons p ps' => exact ⟨p, ps', rfl⟩
    have hlen' : bufs.length < ps'.length := by simpa using hlen
    have hne' : ps' ≠ [] := by
      intro h
      rw [h] at hlen'
      simp at hlen'
    rw [List.length_cons, List.take_succ_cons, List.forall₂_cons] at hfit
    obtain ⟨hcap, hfit'⟩ := hfit
    have ihr := ih ps' hlen' hfit'
    rw [mkMsg_cons p ps' hne']
    have hnotlt : ¬ cap < p.length := not_lt.mpr hcap
    constructor
    · simp only [recvMore, hnotlt, if_false, if_true]
      rw [ihr.1]
      simp
    · intro q hq
      rw [List.length_cons, List.take_succ_cons] at hq
      rcases List.mem_cons.mp hq with h | h
      · rw [h]
      · exact ihr.2 q h

/-- Witness for C3: a 3-part message with payload sizes 1, 1, 1 into
two 1-byte buffers: the first two parts fill the buffers, the call
reports no_buffer_space, and the third part stays on the socket. -/
theorem recv_short_buffers_witness :
    recvMore [1, 1] (mkMsg [[7], [8], [9]])
      = ([[7], [8]], mkMsg [[9]], ECode.noBufferSpace) :=
  (recv_short_buffers [[7], [8], [9]] [1, 1] (by decide)
    (by decide)).1

/-- C5: the reference scenario of the source test
(src/test/socket/main.cpp 72-86): a 3-part envelope of a 5-byte
identity and the 2-byte parts "A" and "B", received with ZMQ_RCVMORE
into a 3-buffer sequence of capacities 5, 2 and 2, transfers exactly
9 bytes, drains the whole message and reports success. -/
theorem envelope_total_nine_bytes :
    receive [5, 2, 2] (mkMsg [List.replicate 5 0, [65, 0], [66, 0]])
      = (9, [], ECode.ok) := by decide

/-! ## Option codec (spec sections 4.1 and 6)

Modelled from the spec: `set_option` / `get_option`
(src/azmq/socket.hpp 186-225) pass a typed option keyed by an integer
id through to the native socket, which stores the value per id. -/

/-- Modelled from the spec: store an integer option value under its id
on the native socket's option table. -/
def setOption (opts : List (Nat × Int)) (id : Nat) (v : Int) : List (Nat × Int) :=
  (id, v) :: opts.filter (fun q => q.1 ≠ id)

/-- Modelled from the spec: read the integer option stored under an id,
none when the id was never set. -/
def getOption (opts : List (Nat × Int)) (id : Nat) : Option Int :=
  (opts.find? (fun q => q.1 == id)).map (fun q => q.2)

/-- C6: setting an integer option and then getting the same option id
on the same socket returns exactly the value just set, for every
option table, id and value. -/
theorem set_get_option_roundtrip (opts : List (Nat × Int)) (id : Nat) (v : Int) :
    getOption (setOption opts id v) id = some v := by
  simp [setOption, getOption, List.find?]

/-! ## Endpoint bookkeeping (spec section 4.1)

Modelled from the spec and the contract stated at
src/azmq/socket.hpp 171-179: the socket records the address of the
most recent successful bind or connect; the string is empty until one
succeeds, and a failed call leaves it unchanged. -/

/-- A bind or connect call together with whether the native library
accepted it. -/
inductive EpEv where
  | bindEv (addr : String) (ok : Bool)
  | connectEv (addr : String) (ok : Bool)
deriving DecidableEq, Repr

/-- Modelled from the spec: effect of one bind/connect call on the
recorded endpoint — record the address on success, keep the previous
one on failure. -/
def epStep (cur : String) : EpEv → String
  | EpEv.bindEv a ok => if ok then a else cur
  | EpEv.connectEv a ok => if ok then a else cur

/-- The endpoint `socket::endpoint()` reports after a sequence of
bind/connect calls on a fresh socket (initially the empty string). -/
def endpointAfter (es : List EpEv) : String := es.foldl epStep ""

/-- The address of a call when it succeeded. -/
def successAddr : EpEv → Option String
  | EpEv.bindEv a ok => if ok then some a else none
  | EpEv.connectEv a ok => if ok then some a else none

/-- Follows the claim's words: the endpoint of the most recent
successful bind/connect call in the sequence, none when every call
failed or none was made. -/
def mostRecentSuccess (es : List EpEv) : Option String :=
  (es.filterMap successAddr).getLast?

theorem epStep_eq_getD (cur : String) (e : EpEv) :
    epStep cur e = (successAddr e).getD cur := by
  cases e with
  | bindEv a ok => cases ok <;> rfl
  | connectEv a ok => cases ok <;> rfl

theorem getLast?_getD_cons (l : List String) :
    ∀ (a c : String), (a :: l).getLast?.getD c = l.getLast?.getD a := by
  induction l with
  | nil => intro a c; rfl
  | cons b l ih =>
    intro a c
    rw [List.getLast?_cons_cons]
    by_cases hb : (b :: l).getLast? = none
    · simp at hb
    · rw [show (b :: l).getLast?.getD c = l.getLast?.getD b from ih b c,
          show (b :: l).getLast?.getD a = l.getLast?.getD b from ih b a]

theorem endpoint_foldl (es : List EpEv) :
    ∀ cur : String, es.foldl epStep cur = (es.filterMap successAddr).getLast?.getD cur := by
  induction es with
  | nil => intro cur; rfl
  | cons e es ih =>
    intro cur
    rw [List.foldl_cons, ih (epStep cur e), List.filterMap_cons]
    cases hse : successAddr e with
    | none => rw [epStep_eq_getD, hse]; rfl
    | some a => rw [epStep_eq_getD, hse, getLast?_getD_cons]; rfl

/-- C8: on a fresh socket the reported endpoint is the empty string;
after any sequence of bind/connect calls it equals the address of the
most recent successful one (empty when none succeeded); and a failed
bind or connect leaves the recorded endpoint unchanged. -/
theorem endpoint_most_recent :
    endpointAfter [] = "" ∧
    (∀ es : List EpEv, endpointAfter es = (mostRecentSuccess es).getD "") ∧
    (∀ (cur : String) (a : String),
        epStep cur (EpEv.bindEv a false) = cur ∧
        epStep cur (EpEv.connectEv a false) = cur) :=
  ⟨rfl, fun es => endpoint_foldl es "", fun _ _ => ⟨rfl, rfl⟩⟩

/-! ## Monitor (src/azmq/socket.hpp 642-653) -/

/-- The native value of ZMQ_PAIR from the wrapped library's header. -/
def ZMQ_PAIR : Int := 0

/-- A socket as the monitor call observes it: its zeromq kind and the
endpoint it is connected to, if any. -/
structure MSocket where
  kind : Int
  connectedTo : Option String
deriving DecidableEq, Repr

/-- `socket::monitor(ios, events, ec)` (src/azmq/socket.hpp 642-653):
asks the service to create the monitoring channel (outcome `svcUri`,
`svcEc`), constructs a fresh ZMQ_PAIR socket, returns it at once when
`svcEc` is set, and otherwise connects it to the channel's uri (the
connect outcome is `connectEc`). -/
def monitor_ec (svcUri : String) (svcEc : ECode) (connectEc : ECode) :
    MSocket × ECode :=
  let res : MSocket := ⟨ZMQ_PAIR, none⟩
  if svcEc ≠ ECode.ok then (res, svcEc)
  else if connectEc ≠ ECode.ok then (res, connectEc)
  else (⟨ZMQ_PAIR, some svcUri⟩, ECode.ok)

/-- C9: when creating the monitoring channel fails, the error-code
monitor variant still returns a newly constructed ZMQ_PAIR socket that
was never connected to any endpoint, with the error code left set. -/
theorem monitor_error_returns_fresh_pair (svcUri : String)
    (svcEc connectEc : ECode) (h : svcEc ≠ ECode.ok) :
    monitor_ec svcUri svcEc connectEc = (⟨ZMQ_PAIR, none⟩, svcEc) := by
  simp [monitor_ec, h]

/-- Witness for C9 at a concrete failed channel creation. -/
theorem monitor_error_returns_fresh_pair_witness :
    monitor_ec "inproc://monitor.abc" ECode.resourceError ECode.ok
      = (⟨ZMQ_PAIR, none⟩, ECode.resourceError) :=
  monitor_error_returns_fresh_pair "inproc://monitor.abc" ECode.resourceError
    ECode.ok (by decide)

/-! ## Ownership and move semantics (spec section 3)

src/azmq/socket.hpp 112-124 declares the move constructor and move
assignment (both delegating to the service's move_construct and
move_assign) and 126-127 deletes copy construction and copy
assignment.  The service's transfer itself is modelled from the spec:
the destination takes over the source's native resource and the source
is left released, usable only for destruction. -/

/-- Ownership state of one live socket object: the native resource it
owns, none once released (moved-from). -/
abbrev Owner := Option Nat

/-- The native resources owned across a collection of live sockets. -/
def ownedResources (socks : List Owner) : List Nat := socks.filterMap id

/-- The spec's invariant: no native resource is owned by two live
sockets at once. -/
abbrev uniqueOwnership (socks : List Owner) : Prop := (ownedResources socks).Nodup

/-- Modelled from the spec: move construction (src/azmq/socket.hpp
112-117) — a new socket object (appended to the collection) takes over
the native resource of the socket at position i, which is left
released. -/
def move_construct (socks : List Owner) (i : Nat) : List Owner :=
  socks.set i none ++ [socks.getD i none]

/-- Modelled from the spec: move assignment (src/azmq/socket.hpp
119-124) — the socket at position dst releases whatever it owned and
takes over the native resource of the socket at position src, which is
left released. -/
def move_assign (socks : List Owner) (dst src : Nat) : List Owner :=
  (socks.set src none).set dst (socks.getD src none)

theorem ownedResources_cons (o : Owner) (l : List Owner) :
    ownedResources (o :: l) = o.toList ++ ownedResources l := by
  cases o <;> simp [ownedResources]

theorem ownedResources_append (l1 l2 : List Owner) :
    ownedResources (l1 ++ l2) = ownedResources l1 ++ ownedResources l2 := by
  simp [ownedResources]

theorem perm_set_release (l : List Owner) :
    ∀ i, List.Perm (ownedResources (l.set i none ++ [l.getD i none]))
      (ownedResources l) := by
  induction l with
  | nil => intro i; cases i <;> simp [ownedResources]
  | cons o rest ih =>
    intro i
    cases i with
    | zero =>
      have hres : ownedResources ((none :: rest) ++ [o])
          = ownedResources rest ++ o.toList := by
        cases o <;> simp [ownedResources]
      rw [List.set_cons_zero, List.getD_cons_zero, hres, ownedResources_cons]
      exact List.perm_append_comm
    | succ i =>
      rw [List.set_cons_succ, List.getD_cons_succ, List.cons_append,
          ownedResources_cons, ownedResources_cons]
      exact (ih i).append_left o.toList

theorem subperm_set (l : List Owner) :
    ∀ (j : Nat) (v : Owner),
      List.Subperm (ownedResources (l.set j v)) (v.toList ++ ownedResources l) := by
  induction l with
  | nil =>
    intro j v
    simp [ownedResources, List.nil_subperm]
  | cons o rest ih =>
    intro j v
    cases j with
    | zero =>
      rw [List.set_cons_zero, ownedResources_cons, ownedResources_cons]
      refine (List.subperm_append_left v.toList).mpr ?_
      exact (List.sublist_append_right o.toList (ownedResources rest)).subperm
    | succ j =>
      rw [List.set_cons_succ, ownedResources_cons, ownedResources_cons]
      have h1 : List.Subperm (o.toList ++ ownedResources (rest.set j v))
          (o.toList ++ (v.toList ++ ownedResources rest)) :=
        (List.subperm_append_left o.toList).mpr (ih j v)
      have h2 : List.Perm (o.toList ++ (v.toList ++ ownedResources rest))
          (v.toList ++ (o.toList ++ ownedResources rest)) := by
        rw [← List.append_assoc, ← List.append_assoc]
        exact List.Perm.append_right (ownedResources rest) List.perm_append_comm
      exact h2.subperm_left.mp h1

theorem subperm_nodup (l1 l2 : List Nat) (h : List.Subperm l1 l2)
    (hd : l2.Nodup) : l1.Nodup := by
  obtain ⟨l, hp, hs⟩ := h
  exact hp.nodup (hs.nodup hd)

theorem move_assign_subperm (socks : List Owner) (dst src : Nat) :
    List.Subperm (ownedResources (move_assign socks dst src))
      (ownedResources socks) := by
  have h1 := subperm_set (socks.set src none) dst (socks.getD src none)
  have h2 : List.Perm
      ((socks.getD src none).toList ++ ownedResources (socks.set src none))
      (ownedResources socks) := by
    have h3 := perm_set_release socks src
    rw [ownedResources_append, ownedResources_cons] at h3
    simp only [ownedResources, List.filterMap_nil, List.append_nil] at h3
    exact List.Perm.trans List.perm_append_comm h3
  exact h2.subperm_left.mp h1

/-- C7: under the invariant that no native resource has two owners,
both move construction and move assignment preserve the invariant, the
destination ends up owning exactly the resource the source owned, and
the source is left in the released state. -/
theorem move_transfers_unique_ownership (socks : List Owner) (i dst src : Nat)
    (h : uniqueOwnership socks) (hi : i < socks.length)
    (hsrc : src < socks.length) (hdst : dst < socks.length) (hne : dst ≠ src) :
    uniqueOwnership (move_construct socks i) ∧
    (move_construct socks i).getLast? = some (socks.getD i none) ∧
    (move_construct socks i).getD i none = none ∧
    uniqueOwnership (move_assign socks dst src) ∧
    (move_assign socks dst src).getD src none = none ∧
    (move_assign socks dst src).getD dst none = socks.getD src none := by
  refine ⟨?_, ?_, ?_, ?_, ?_, ?_⟩
  · exact ((perm_set_release socks i).symm).nodup h
  · exact List.getLast?_concat _
  · have hlen : i < (socks.set i none).length := by
      rw [List.length_set]; exact hi
    rw [move_construct, List.getD_eq_getElem?_getD,
        List.getElem?_append_left hlen]
    simp [List.getElem?_set_self, hi]
  · exact subperm_nodup _ _ (move_assign_subperm socks dst src) h
  · have hlen : src < (socks.set src none).length := by
      rw [List.length_set]; exact hsrc
    rw [move_assign, List.getD_eq_getElem?_getD, List.getElem?_set_ne hne]
    simp [List.getElem?_set_self, hsrc]
  · rw [move_assign, List.getD_eq_getElem?_getD]
    simp [List.getElem?_set_self, hdst]

/-- Witness for C7 at two sockets owning resources 10 and 20: moving
socket 0 into a new object keeps ownership unique. -/
theorem move_transfers_unique_ownership_witness :
    uniqueOwnership (move_construct [some 10, some 20] 0) ∧
    (move_assign [some 10, some 20] 0 1).getD 0 none = some 20 :=
  ⟨(move_transfers_unique_ownership [some 10, some 20] 0 0 1 (by decide)
      (by decide) (by decide) (by decide) (by decide)).1,
   by
    have := (move_transfers_unique_ownership [some 10, some 20] 0 0 1 (by decide)
      (by decide) (by decide) (by decide) (by decide)).2.2.2.2.2
    simpa using this⟩

end Azmq
